import Mathlib

set_option autoImplicit false

/-!
Verification of the dmi-copy tool: a shallow embedding of the state-merge
engine of `src/main.rs`, the dual-syntax argument parser of `src/args.rs`,
and the atomic-commit procedure `save_dmi`, together with proofs of the
specified properties.
-/

namespace DmiCopy

/-- An icon state of a DMI container (`dmi::icon::IconState` from the external
`dmi` crate).  The merge engine in `main.rs` only uses the `name` field and
whole-value equality, so the remaining pixel/animation payload is collapsed
into a single opaque field `data`; two states are equal iff name and payload
agree, mirroring the crate's derived equality. -/
structure IconState where
  name : String
  data : Nat
deriving DecidableEq, Repr

/-- A DMI container (`dmi::icon::Icon`): an ordered sequence of icon states
plus format metadata that the merge never inspects, collapsed into the opaque
field `metadata`. -/
structure Icon where
  metadata : Nat
  states : List IconState
deriving DecidableEq, Repr

/-- One report line printed by the merge in `main.rs` (lines 42, 44, 56). -/
inductive Report where
  | identical (name : String)
  | replaced (name : String)
  | added (name : String)
deriving DecidableEq, Repr

/-- The state name a report line is about. -/
def Report.name : Report → String
  | .identical n => n
  | .replaced n => n
  | .added n => n

/-- The body of the `filter_map` closure in `main.rs` lines 35-50:
`to.states.iter_mut().find(|e| e.name == name)` followed by the in-place
update.  Finds the first destination state carrying the incoming state's
name; if it equals the incoming state the list is unchanged (flag `true`,
reported identical), otherwise the slot is overwritten in place (flag
`false`, reported replaced).  Returns `none` when no destination state has
that name (the incoming state is then queued for appending). -/
def replaceFirstByName (s : IconState) : List IconState → Option (List IconState × Bool)
  | [] => none
  | e :: rest =>
    if e.name = s.name then
      if e = s then some (e :: rest, true) else some (s :: rest, false)
    else
      (replaceFirstByName s rest).map (fun p => (e :: p.1, p.2))

/-- The iteration of `main.rs` lines 33-52 over the selected source states:
returns the destination list after the in-place replacements, the queue
`states_to_insert` of states to append in the order they were encountered,
and the report lines printed during this pass (the `added` lines are printed
later, by the append loop of lines 55-58). -/
def mergeLoop : List IconState → List IconState → List IconState × List IconState × List Report
  | dst, [] => (dst, [], [])
  | dst, s :: rest =>
    match replaceFirstByName s dst with
    | some (dst', identical) =>
      let r := mergeLoop dst' rest
      (r.1, r.2.1, (if identical then Report.identical s.name else Report.replaced s.name) :: r.2.2)
    | none =>
      let r := mergeLoop dst rest
      (r.1, s :: r.2.1, r.2.2)

/-- The selection filter of `main.rs` lines 28-32:
`from.states.iter().filter(|state| args.icon_states.contains(&state.name))`.
Selection never looks at the destination, so it commutes with the loop. -/
def selStates (src : Icon) (requested : List String) : List IconState :=
  src.states.filter (fun s => requested.contains s.name)

/-- The whole merge of `main.rs` lines 28-58: run the replacement pass over
the selected source states, then push every queued state at the end of the
destination (lines 55-58), printing an `added` line for each.  Returns the
mutated destination container and the full report in print order. -/
def merge (src dst : Icon) (requested : List String) : Icon × List Report :=
  let r := mergeLoop dst.states (selStates src requested)
  (⟨dst.metadata, r.1 ++ r.2.1⟩, r.2.2 ++ r.2.1.map (fun s => Report.added s.name))

/-- `ParseMode` from `args.rs` lines 190-197. -/
inductive ParseMode where
  | States
  | From
  | WaitingTo
  | To
  | Done
deriving DecidableEq, Repr

/-- The distinct fatal errors of the natural-syntax parser in `args.rs`, one
constructor per `eyre!` message of `parse_natural_syntax`. -/
inductive ParseErr where
  | noStatesBeforeFrom
  | sourceNotSpecifiedBeforeTo
  | expectedToKeyword
  | unexpectedAdditionalArgs
  | missingDestination
  | missingSource
  | missingBoth
deriving DecidableEq, Repr

/-- `DmiCopyArgs` from `args.rs` lines 8-16; the two `PathBuf` paths are
modelled as strings. -/
structure DmiCopyArgs where
  «from» : String
  «to» : String
  icon_states : List String
deriving DecidableEq, Repr

/-- The token loop of `parse_natural_syntax` (`args.rs` lines 137-171).  The
keyword arms for `from` and `to` are tested before the current mode is
consulted, exactly as in the Rust `match arg.as_str()`; the fallthrough arm
dispatches on the current mode.  Returns the collected state names and the
two optional paths, or the first fatal error. -/
def parseNaturalLoop :
    List String → List String → Option String → Option String → ParseMode →
    Except ParseErr (List String × Option String × Option String)
  | [], states, f, t, _ => .ok (states, f, t)
  | arg :: rest, states, f, t, mode =>
    if arg = "from" then
      if states.isEmpty then .error .noStatesBeforeFrom
      else parseNaturalLoop rest states f t .From
    else if arg = "to" then
      if f.isSome then parseNaturalLoop rest states f t .To
      else .error .sourceNotSpecifiedBeforeTo
    else
      match mode with
      | .States => parseNaturalLoop rest (states ++ [arg]) f t .States
      | .From => parseNaturalLoop rest states (some arg) t .WaitingTo
      | .To => parseNaturalLoop rest states f (some arg) .Done
      | .WaitingTo => .error .expectedToKeyword
      | .Done => .error .unexpectedAdditionalArgs

/-- `DmiCopyArgs::parse_natural_syntax` (`args.rs` lines 131-183): run the
token loop from the initial state, then check which of the two paths were
set, with a distinct error for each way of being incomplete. -/
def parse_natural (args : List String) : Except ParseErr DmiCopyArgs :=
  match parseNaturalLoop args [] none none .States with
  | .error e => .error e
  | .ok (states, f, t) =>
    match f, t with
    | some f, some t => .ok ⟨f, t, states⟩
    | some _, none => .error .missingDestination
    | none, some _ => .error .missingSource
    | none, none => .error .missingBoth

/-- Tests whether a natural-syntax parse ended in the `Missing source file`
error (the `(None, Some(_))` arm of `args.rs` line 180). -/
def isMissingSource : Except ParseErr DmiCopyArgs → Bool
  | .error .missingSource => true
  | _ => false

/-- The comma split of Rust's `arg.split(',')`, over the character sequence:
every comma ends the current piece, so consecutive commas yield empty
pieces and the empty input yields one empty piece. -/
def splitOnComma : List Char → List (List Char)
  | [] => [[]]
  | c :: rest =>
    if c = ',' then [] :: splitOnComma rest
    else
      match splitOnComma rest with
      | [] => [[c]]
      | piece :: pieces => (c :: piece) :: pieces

/-- Rust `str::trim`: drop whitespace from both ends of a piece. -/
def trimChars (l : List Char) : List Char :=
  ((l.dropWhile Char.isWhitespace).reverse.dropWhile Char.isWhitespace).reverse

/-- `parse_state_arg` (`args.rs` lines 86-92): split the flag value on
commas, trim surrounding whitespace from each piece, drop empty pieces. -/
def parse_state_arg (arg : String) : List String :=
  ((splitOnComma arg.data).map (fun p => String.mk (trimChars p))).filter
    (fun s => !s.isEmpty)

/-- The flag-syntax accumulation of `DmiCopyArgs::parse` (`args.rs` lines
110-115): clap parses each `--state` occurrence with `parse_state_arg` and
appends, and the per-occurrence lists are then flattened in occurrence
order (`states.into_iter().flatten().collect()`). -/
def flagIconStates (occurrences : List String) : List String :=
  (occurrences.map parse_state_arg).flatten

/-- A file system as an association list from paths to byte strings; a write
shadows earlier entries for the same path.  This is the boundary model for
the external file-system calls made by `save_dmi` in `main.rs`. -/
structure FS where
  files : List (String × List Nat)
deriving DecidableEq, Repr

/-- The current contents of a path, if the file exists. -/
def FS.read (fs : FS) (p : String) : Option (List Nat) :=
  (fs.files.find? (fun e => e.1 == p)).map (fun e => e.2)

/-- Create or overwrite a file. -/
def FS.write (fs : FS) (p : String) (c : List Nat) : FS :=
  ⟨(p, c) :: fs.files⟩

/-- Delete a file (all shadowed entries included). -/
def FS.remove (fs : FS) (p : String) : FS :=
  ⟨fs.files.filter (fun e => e.1 != p)⟩

/-- The failure points of `save_dmi` (`main.rs` lines 75-89), one constructor
per `wrap_err` site. -/
inductive SaveError where
  | createTempFailed
  | serializeFailed
  | finishFailed
  | copyFailed
deriving DecidableEq, Repr

/-- The possible outcomes of the `std::fs::copy` publish step in `save_dmi`
(`main.rs` line 87).  The copy is not atomic: it opens the destination with
create-and-truncate and then streams the bytes, so besides success it can
fail before the destination is opened (destination untouched, e.g. a
permission error) or mid-stream after `written` bytes (destination left
truncated to a prefix of the new contents, e.g. the disk filling up). -/
inductive CopyOutcome where
  | ok
  | failedBeforeOpen
  | failedAfter (written : Nat)
deriving DecidableEq, Repr

/-- `save_dmi` (`main.rs` lines 75-89) at the boundary of its external
collaborators: `tempOk` stands for `tempfile::Builder::tempfile` succeeding,
`encode` for `Icon::save` into the buffered temp file (`none` means a
serialization failure), `finishOk` for `BufWriter::into_inner`, and
`copyOut` for the outcome of `std::fs::copy`, including its non-atomic
failure modes.  The temp file lives at the fresh path `tempPath` and is
deleted when the `NamedTempFile` guard is dropped, on every exit path; the
destination `path` is touched only by the copy step, which truncates it
before writing, so a mid-copy failure leaves a prefix of the new bytes. -/
def save_dmi (encode : Icon → Option (List Nat)) (tempOk finishOk : Bool)
    (copyOut : CopyOutcome) (dmi : Icon) (path tempPath : String) (fs : FS) :
    FS × Except SaveError Unit :=
  if tempOk then
    let fs1 := fs.write tempPath []
    match encode dmi with
    | none => (fs1.remove tempPath, Except.error .serializeFailed)
    | some bytes =>
      if finishOk then
        let fs2 := fs1.write tempPath bytes
        match copyOut with
        | .ok => ((fs2.write path bytes).remove tempPath, Except.ok ())
        | .failedBeforeOpen => (fs2.remove tempPath, Except.error .copyFailed)
        | .failedAfter written =>
          ((fs2.write path (bytes.take written)).remove tempPath,
           Except.error .copyFailed)
      else (fs1.remove tempPath, Except.error .finishFailed)
  else (fs, Except.error .createTempFailed)

/-- The error context attached when loading the input file fails
(`main.rs` lines 23-24): interpolates `args.from`. -/
def inputLoadContext (fromPath : String) : String :=
  "failed to read input file " ++ fromPath

/-- The error context attached when loading the output file fails
(`main.rs` lines 25-26).  The format string interpolates
`args.from.display()` even though the failing operation reads `args.to`;
the second parameter records the path actually being read. -/
def outputLoadContext (fromPath _toPath : String) : String :=
  "failed to read output file " ++ fromPath

/-- The error context attached when saving fails (`main.rs` lines 60-61):
interpolates `args.to`. -/
def saveContext (toPath : String) : String :=
  "failed to save dmi to " ++ toPath

/-! ### Lemmas about the replacement step -/

theorem replaceFirstByName_names {s : IconState} {l l' : List IconState} {b : Bool}
    (h : replaceFirstByName s l = some (l', b)) :
    l'.map (fun e => e.name) = l.map (fun e => e.name) := by
  induction l generalizing l' b with
  | nil => simp [replaceFirstByName] at h
  | cons e rest ih =>
    rw [replaceFirstByName] at h
    by_cases hname : e.name = s.name
    · rw [if_pos hname] at h
      by_cases heq : e = s
      · rw [if_pos heq] at h; cases h; rfl
      · rw [if_neg heq] at h; cases h; simp [hname]
    · rw [if_neg hname, Option.map_eq_some'] at h
      obtain ⟨p, hp, hpe⟩ := h
      cases hpe
      simp only [List.map_cons]
      rw [ih hp]

theorem replaceFirstByName_eq_none {s : IconState} {l : List IconState} :
    replaceFirstByName s l = none ↔ ∀ e ∈ l, e.name ≠ s.name := by
  induction l with
  | nil => simp [replaceFirstByName]
  | cons e rest ih =>
    rw [replaceFirstByName]
    by_cases hname : e.name = s.name
    · rw [if_pos hname]
      by_cases heq : e = s <;> simp [heq, hname]
    · rw [if_neg hname]
      simp [Option.map_eq_none', ih, hname]

theorem replaceFirstByName_find?_self {s : IconState} {l l' : List IconState} {b : Bool}
    (h : replaceFirstByName s l = some (l', b)) :
    l'.find? (fun e => e.name == s.name) = some s := by
  induction l generalizing l' b with
  | nil => simp [replaceFirstByName] at h
  | cons e rest ih =>
    rw [replaceFirstByName] at h
    by_cases hname : e.name = s.name
    · rw [if_pos hname] at h
      by_cases heq : e = s
      · rw [if_pos heq] at h; cases h
        rw [List.find?_cons_of_pos _ (by simp [hname])]
        rw [heq]
      · rw [if_neg heq] at h; cases h
        rw [List.find?_cons_of_pos _ (by simp)]
    · rw [if_neg hname, Option.map_eq_some'] at h
      obtain ⟨p, hp, hpe⟩ := h
      cases hpe
      rw [List.find?_cons_of_neg _ (by simp [hname])]
      exact ih hp

theorem replaceFirstByName_find?_frame {s : IconState} {n : String}
    {l l' : List IconState} {b : Bool}
    (hn : s.name ≠ n) (h : replaceFirstByName s l = some (l', b)) :
    l'.find? (fun e => e.name == n) = l.find? (fun e => e.name == n) := by
  induction l generalizing l' b with
  | nil => simp [replaceFirstByName] at h
  | cons e rest ih =>
    rw [replaceFirstByName] at h
    by_cases hname : e.name = s.name
    · rw [if_pos hname] at h
      by_cases heq : e = s
      · rw [if_pos heq] at h; cases h; rfl
      · rw [if_neg heq] at h; cases h
        rw [List.find?_cons_of_neg _ (by simp [hn]),
          List.find?_cons_of_neg _ (by simp [hname ▸ hn])]
    · rw [if_neg hname, Option.map_eq_some'] at h
      obtain ⟨p, hp, hpe⟩ := h
      cases hpe
      by_cases he : e.name = n
      · rw [List.find?_cons_of_pos _ (by simp [he]),
          List.find?_cons_of_pos _ (by simp [he])]
      · rw [List.find?_cons_of_neg _ (by simp [he]),
          List.find?_cons_of_neg _ (by simp [he])]
        exact ih hp

theorem replaceFirstByName_of_find?_self {s : IconState} {l : List IconState}
    (h : l.find? (fun e => e.name == s.name) = some s) :
    replaceFirstByName s l = some (l, true) := by
  induction l with
  | nil => simp at h
  | cons e rest ih =>
    rw [replaceFirstByName]
    by_cases hname : e.name = s.name
    · rw [List.find?_cons_of_pos _ (by simp [hname])] at h
      cases h
      rw [if_pos hname, if_pos rfl]
    · rw [List.find?_cons_of_neg _ (by simp [hname])] at h
      rw [if_neg hname, ih h]
      rfl

theorem replaceFirstByName_mem_name {s : IconState} {l l' : List IconState} {b : Bool}
    (h : replaceFirstByName s l = some (l', b)) :
    s.name ∈ l.map (fun e => e.name) := by
  by_contra hmem
  rw [(replaceFirstByName_eq_none (s := s) (l := l)).mpr] at h
  · cases h
  · intro e he hne
    exact hmem (hne ▸ List.mem_map_of_mem (fun e => e.name) he)

/-! ### Lemmas about the merge loop -/

theorem mergeLoop_dst_names (sel : List IconState) (dst : List IconState) :
    (mergeLoop dst sel).1.map (fun e => e.name) = dst.map (fun e => e.name) := by
  induction sel generalizing dst with
  | nil => rfl
  | cons s rest ih =>
    rw [mergeLoop]
    cases h : replaceFirstByName s dst with
    | none => exact ih dst
    | some p =>
      have := ih p.1
      rw [replaceFirstByName_names h] at this
      exact this

theorem mergeLoop_queue (sel : List IconState) (dst : List IconState) :
    (mergeLoop dst sel).2.1
      = sel.filter (fun s => decide (s.name ∉ dst.map (fun e => e.name))) := by
  induction sel generalizing dst with
  | nil => rfl
  | cons s rest ih =>
    rw [mergeLoop]
    cases h : replaceFirstByName s dst with
    | none =>
      have hmem : s.name ∉ dst.map (fun e => e.name) := by
        intro hmem
        obtain ⟨e, he, hname⟩ := List.mem_map.mp hmem
        exact replaceFirstByName_eq_none.mp h e he hname
      show s :: (mergeLoop dst rest).2.1 = _
      rw [List.filter_cons_of_pos (by simpa using hmem), ih dst]
    | some p =>
      have hmem : s.name ∈ dst.map (fun e => e.name) := replaceFirstByName_mem_name h
      show (mergeLoop p.1 rest).2.1 = _
      rw [List.filter_cons_of_neg (by simpa using hmem), ih p.1,
        replaceFirstByName_names h]

theorem mergeLoop_report_names (sel : List IconState) (dst : List IconState) :
    ∀ rep ∈ (mergeLoop dst sel).2.2, rep.name ∈ sel.map (fun s => s.name) := by
  induction sel generalizing dst with
  | nil => intro rep h; cases h
  | cons s rest ih =>
    intro rep hrep
    rw [mergeLoop] at hrep
    cases h : replaceFirstByName s dst with
    | none =>
      rw [h] at hrep
      exact List.mem_cons_of_mem _ (ih dst rep hrep)
    | some p =>
      rw [h] at hrep
      rcases List.mem_cons.mp hrep with hhead | htail
      · subst hhead
        cases p.2 <;> simp [Report.name]
      · exact List.mem_cons_of_mem _ (ih p.1 rep htail)

theorem mergeLoop_find?_frame {n : String} (sel : List IconState) (dst : List IconState)
    (hn : ∀ s ∈ sel, s.name ≠ n) :
    ((mergeLoop dst sel).1 ++ (mergeLoop dst sel).2.1).find? (fun e => e.name == n)
      = dst.find? (fun e => e.name == n) := by
  induction sel generalizing dst with
  | nil => simp [mergeLoop]
  | cons s rest ih =>
    have hs : s.name ≠ n := hn s (List.mem_cons_self s rest)
    have hrest : ∀ x ∈ rest, x.name ≠ n := fun x hx => hn x (List.mem_cons_of_mem s hx)
    rw [mergeLoop]
    cases h : replaceFirstByName s dst with
    | none =>
      show ((mergeLoop dst rest).1 ++ s :: (mergeLoop dst rest).2.1).find? _ = _
      rw [List.find?_append, List.find?_cons_of_neg _ (by simp [hs]),
        ← List.find?_append, ih dst hrest]
    | some p =>
      show ((mergeLoop p.1 rest).1 ++ (mergeLoop p.1 rest).2.1).find? _ = _
      rw [ih p.1 hrest, replaceFirstByName_find?_frame hs h]

theorem mergeLoop_find?_self (sel : List IconState) (dst : List IconState)
    (hp : sel.Pairwise (fun a b => a.name ≠ b.name)) :
    ∀ s ∈ sel,
      ((mergeLoop dst sel).1 ++ (mergeLoop dst sel).2.1).find? (fun e => e.name == s.name)
        = some s := by
  induction sel generalizing dst with
  | nil => intro s hs; cases hs
  | cons s rest ih =>
    have hhead : ∀ t ∈ rest, s.name ≠ t.name := fun t ht => List.rel_of_pairwise_cons hp ht
    have htail : rest.Pairwise (fun a b => a.name ≠ b.name) := hp.of_cons
    intro t ht
    rw [mergeLoop]
    cases h : replaceFirstByName s dst with
    | none =>
      show ((mergeLoop dst rest).1 ++ s :: (mergeLoop dst rest).2.1).find? _ = _
      rcases List.mem_cons.mp ht with rfl | htr
      · have hdst : ∀ e ∈ (mergeLoop dst rest).1, (fun e => e.name == t.name) e ≠ true := by
          intro e he
          have hmem : e.name ∈ dst.map (fun x => x.name) := by
            rw [← mergeLoop_dst_names rest dst]
            exact List.mem_map_of_mem (fun x => x.name) he
          obtain ⟨x, hx, hxname⟩ := List.mem_map.mp hmem
          simpa [hxname] using replaceFirstByName_eq_none.mp h x hx
        rw [List.find?_append, List.find?_eq_none.mpr hdst, Option.none_or,
          List.find?_cons_of_pos _ (by simp)]
      · have hIH := ih dst htail t htr
        have hne : s.name ≠ t.name := hhead t htr
        rw [List.find?_append] at hIH ⊢
        cases hd : ((mergeLoop dst rest).1).find? (fun e => e.name == t.name) with
        | some x => rw [hd] at hIH; simpa using hIH
        | none =>
          rw [hd] at hIH
          rw [Option.none_or] at hIH ⊢
          rw [List.find?_cons_of_neg _ (by simpa using hne), hIH]
    | some p =>
      show ((mergeLoop p.1 rest).1 ++ (mergeLoop p.1 rest).2.1).find? _ = _
      rcases List.mem_cons.mp ht with rfl | htr
      · rw [mergeLoop_find?_frame rest p.1 (fun x hx => (hhead x hx).symm)]
        exact replaceFirstByName_find?_self h
      · exact ih p.1 htail t htr

theorem mergeLoop_all_identical {sel dst : List IconState}
    (h : ∀ s ∈ sel, dst.find? (fun e => e.name == s.name) = some s) :
    mergeLoop dst sel = (dst, [], sel.map (fun s => Report.identical s.name)) := by
  induction sel with
  | nil => rfl
  | cons s rest ih =>
    have hr := replaceFirstByName_of_find?_self (h s (List.mem_cons_self s rest))
    rw [mergeLoop, hr]
    show ((mergeLoop dst rest).1, (mergeLoop dst rest).2.1,
        Report.identical s.name :: (mergeLoop dst rest).2.2) = _
    rw [ih (fun u hu => h u (List.mem_cons_of_mem s hu))]
    rfl

/-! ### Lemmas about the natural-syntax token loop -/

/-- Processing a block of non-keyword tokens in the state-collecting mode
appends them, in order, to the collected state names. -/
theorem parseNaturalLoop_collect {pre : List String}
    (hpre : ∀ x ∈ pre, x ≠ "from" ∧ x ≠ "to") :
    ∀ (l states : List String) (f t : Option String),
      parseNaturalLoop (pre ++ l) states f t .States
        = parseNaturalLoop l (states ++ pre) f t .States := by
  induction pre with
  | nil => intro l states f t; rw [List.append_nil]; rfl
  | cons a pre ih =>
    intro l states f t
    have ha := hpre a (List.mem_cons_self a pre)
    show parseNaturalLoop (a :: (pre ++ l)) states f t .States = _
    rw [parseNaturalLoop, if_neg ha.1, if_neg ha.2]
    show parseNaturalLoop (pre ++ l) (states ++ [a]) f t .States = _
    have hl : (states ++ [a]) ++ pre = states ++ a :: pre := by simp
    rw [ih (fun x hx => hpre x (List.mem_cons_of_mem a hx)), hl]

/-- One-step unfolding of the token loop on a cons, with the mode symbolic. -/
theorem parseNaturalLoop_cons (arg : String) (rest states : List String)
    (f t : Option String) (mode : ParseMode) :
    parseNaturalLoop (arg :: rest) states f t mode
      = if arg = "from" then
          (if states.isEmpty then .error .noStatesBeforeFrom
           else parseNaturalLoop rest states f t .From)
        else if arg = "to" then
          (if f.isSome then parseNaturalLoop rest states f t .To
           else .error .sourceNotSpecifiedBeforeTo)
        else
          match mode with
          | .States => parseNaturalLoop rest (states ++ [arg]) f t .States
          | .From => parseNaturalLoop rest states (some arg) t .WaitingTo
          | .To => parseNaturalLoop rest states f (some arg) .Done
          | .WaitingTo => .error .expectedToKeyword
          | .Done => .error .unexpectedAdditionalArgs := by
  cases mode <;> rfl

/-- The token loop only ever produces one of its four own errors; the three
missing-path errors come from the final check, not from the loop. -/
theorem parseNaturalLoop_error_set {l states : List String} {f t : Option String}
    {mode : ParseMode} {e : ParseErr}
    (h : parseNaturalLoop l states f t mode = .error e) :
    e = .noStatesBeforeFrom ∨ e = .sourceNotSpecifiedBeforeTo
      ∨ e = .expectedToKeyword ∨ e = .unexpectedAdditionalArgs := by
  induction l generalizing states f t mode with
  | nil => cases h
  | cons arg rest ih =>
    rw [parseNaturalLoop_cons] at h
    by_cases hfrom : arg = "from"
    · rw [if_pos hfrom] at h
      cases hempty : states.isEmpty
      · rw [hempty] at h
        exact ih h
      · rw [hempty] at h
        cases h
        exact Or.inl rfl
    · rw [if_neg hfrom] at h
      by_cases hto : arg = "to"
      · rw [if_pos hto] at h
        cases hsome : f.isSome
        · rw [hsome] at h
          cases h
          exact Or.inr (Or.inl rfl)
        · rw [hsome] at h
          exact ih h
      · rw [if_neg hto] at h
        cases mode with
        | States => exact ih h
        | From => exact ih h
        | To => exact ih h
        | WaitingTo => cases h; exact Or.inr (Or.inr (Or.inl rfl))
        | Done => cases h; exact Or.inr (Or.inr (Or.inr rfl))

/-- Loop invariant: the destination path can only be set while the source
path is already set, and the source path is never unset. -/
theorem parseNaturalLoop_source_before_dest {l states : List String}
    {f t : Option String} {mode : ParseMode}
    (hft : t.isSome = true → f.isSome = true)
    (hmode : (mode = ParseMode.WaitingTo ∨ mode = ParseMode.To ∨ mode = ParseMode.Done) →
      f.isSome = true)
    {states' : List String} {f' t' : Option String}
    (h : parseNaturalLoop l states f t mode = .ok (states', f', t')) :
    t'.isSome = true → f'.isSome = true := by
  induction l generalizing states f t mode with
  | nil =>
    cases h
    exact hft
  | cons arg rest ih =>
    rw [parseNaturalLoop_cons] at h
    by_cases hfrom : arg = "from"
    · rw [if_pos hfrom] at h
      cases hempty : states.isEmpty
      · rw [hempty] at h
        exact ih hft (by rintro (hm | hm | hm) <;> cases hm) h
      · rw [hempty] at h
        cases h
    · rw [if_neg hfrom] at h
      by_cases hto : arg = "to"
      · rw [if_pos hto] at h
        cases hsome : f.isSome
        · rw [hsome] at h
          cases h
        · rw [hsome] at h
          exact ih hft (fun _ => hsome) h
      · rw [if_neg hto] at h
        cases mode with
        | States => exact ih hft (by rintro (hm | hm | hm) <;> cases hm) h
        | From => exact ih (fun _ => Option.isSome_some) (fun _ => Option.isSome_some) h
        | To =>
          have hf : f.isSome = true := hmode (Or.inr (Or.inl rfl))
          exact ih (fun _ => hf) (fun _ => hf) h
        | WaitingTo => cases h
        | Done => cases h

/-! ### Lemmas about the file-system model -/

theorem FS.read_write_ne {fs : FS} {p q : String} {c : List Nat} (h : p ≠ q) :
    (fs.write p c).read q = fs.read q := by
  unfold FS.read FS.write
  rw [List.find?_cons_of_neg _ (by simpa using h)]

theorem FS.read_remove_ne {fs : FS} {p q : String} (h : p ≠ q) :
    (fs.remove p).read q = fs.read q := by
  unfold FS.read FS.remove
  congr 1
  induction fs.files with
  | nil => rfl
  | cons e rest ih =>
    by_cases hp : e.1 = p
    · rw [List.filter_cons_of_neg (by simpa using hp),
        List.find?_cons_of_neg _ (by simp [hp]; exact fun hq => h (hp ▸ hq))]
      exact ih
    · rw [List.filter_cons_of_pos (by simpa using hp)]
      by_cases hq : e.1 = q
      · rw [List.find?_cons_of_pos _ (by simpa using hq),
          List.find?_cons_of_pos _ (by simpa using hq)]
      · rw [List.find?_cons_of_neg _ (by simpa using hq),
          List.find?_cons_of_neg _ (by simpa using hq)]
        exact ih

/-! ### Claim theorems: the merge engine -/

/-- C1: the merge keeps the destination positions of untouched and replaced
states (position by position, the prefix of the result carries exactly the
destination's state names, replacements having happened in place), and the
states appended as new are exactly the selected source states whose names
are absent from the destination, appended at the end in the relative order
in which they were encountered while iterating the source's state sequence
(not in the order of the requested-name list). -/
theorem merge_preserves_positions_and_appends_in_source_order
    (src dst : Icon) (req : List String) :
    ((merge src dst req).1.states.take dst.states.length).map (fun e => e.name)
        = dst.states.map (fun e => e.name)
    ∧ (merge src dst req).1.states.drop dst.states.length
        = (selStates src req).filter
            (fun s => decide (s.name ∉ dst.states.map (fun e => e.name))) := by
  have hnames := mergeLoop_dst_names (selStates src req) dst.states
  have hlen : (mergeLoop dst.states (selStates src req)).1.length
      = dst.states.length := by
    simpa using congrArg List.length hnames
  constructor
  · show (((mergeLoop dst.states (selStates src req)).1
        ++ (mergeLoop dst.states (selStates src req)).2.1).take
          dst.states.length).map _ = _
    rw [List.take_left' hlen]
    exact hnames
  · show ((mergeLoop dst.states (selStates src req)).1
        ++ (mergeLoop dst.states (selStates src req)).2.1).drop
          dst.states.length = _
    rw [List.drop_left' hlen]
    exact mergeLoop_queue _ _

/-- C3 counterexample: when the source itself carries two states named `n`,
requesting `n` appends both, so the resulting destination has duplicate
state names (the name list evaluates to two copies of `n` and its
uniqueness check evaluates to false). -/
theorem merge_duplicate_source_names_break_uniqueness :
    (merge ⟨0, [⟨"n", 1⟩, ⟨"n", 2⟩]⟩ ⟨0, []⟩ ["n"]).1.states.map (fun e => e.name)
        = ["n", "n"]
    ∧ decide (((merge ⟨0, [⟨"n", 1⟩, ⟨"n", 2⟩]⟩ ⟨0, []⟩ ["n"]).1.states.map
        (fun e => e.name)).Nodup) = false :=
  ⟨rfl, by decide⟩

/-- C3 amended: provided the source's state names and the destination's
state names are each pairwise unique, the merge leaves the destination's
state names pairwise unique: a replace overwrites in place and an add
appends only a state whose name no existing destination state has. -/
theorem merge_nodup (src dst : Icon) (req : List String)
    (hdst : (dst.states.map (fun e => e.name)).Nodup)
    (hsrc : (src.states.map (fun e => e.name)).Nodup) :
    ((merge src dst req).1.states.map (fun e => e.name)).Nodup := by
  show (((mergeLoop dst.states (selStates src req)).1
      ++ (mergeLoop dst.states (selStates src req)).2.1).map (fun e => e.name)).Nodup
  rw [List.map_append, mergeLoop_dst_names, mergeLoop_queue, List.nodup_append]
  refine ⟨hdst, ?_, ?_⟩
  · have hsub : List.Sublist
        ((selStates src req).filter
          (fun s => decide (s.name ∉ dst.states.map (fun e => e.name))))
        src.states :=
      List.Sublist.trans (List.filter_sublist _) (List.filter_sublist _)
    exact List.Nodup.sublist (List.Sublist.map (fun e => e.name) hsub) hsrc
  · intro a ha hb
    obtain ⟨x, hx, rfl⟩ := List.mem_map.mp hb
    have hpred := (List.mem_filter.mp hx).2
    simp only [decide_eq_true_eq] at hpred
    exact hpred ha

/-- Witness for the amended C3 at a concrete input. -/
theorem merge_nodup_witness :
    ((merge ⟨0, [⟨"a", 1⟩, ⟨"b", 2⟩]⟩ ⟨0, [⟨"a", 0⟩]⟩ ["a", "b"]).1.states.map
      (fun e => e.name)).Nodup :=
  merge_nodup _ _ _ (by decide) (by decide)

/-- C6 counterexample: with two source states sharing the name `n`, the first
merge appends both, and the second merge replaces the first copy with the
second and reports a replacement, so the destination changes between runs
and not every matched state is reported identical. -/
theorem merge_second_run_differs_with_duplicate_source_names :
    (merge ⟨0, [⟨"n", 1⟩, ⟨"n", 2⟩]⟩ ⟨0, []⟩ ["n"]).1.states
        = [⟨"n", 1⟩, ⟨"n", 2⟩]
    ∧ (merge ⟨0, [⟨"n", 1⟩, ⟨"n", 2⟩]⟩
          (merge ⟨0, [⟨"n", 1⟩, ⟨"n", 2⟩]⟩ ⟨0, []⟩ ["n"]).1 ["n"]).1.states
        = [⟨"n", 2⟩, ⟨"n", 2⟩]
    ∧ (merge ⟨0, [⟨"n", 1⟩, ⟨"n", 2⟩]⟩
          (merge ⟨0, [⟨"n", 1⟩, ⟨"n", 2⟩]⟩ ⟨0, []⟩ ["n"]).1 ["n"]).2
        = [Report.identical "n", Report.replaced "n"] :=
  ⟨rfl, rfl, rfl⟩

/-- C6 amended: provided no two source states share a name, the merge is
idempotent: running it again on the result with the same source and
requested names returns the destination unchanged and reports every matched
state as identical (and nothing else). -/
theorem merge_idempotent (src dst : Icon) (req : List String)
    (hsrc : src.states.Pairwise (fun a b => a.name ≠ b.name)) :
    merge src (merge src dst req).1 req
      = ((merge src dst req).1,
         (selStates src req).map (fun s => Report.identical s.name)) := by
  have hsel : (selStates src req).Pairwise (fun a b => a.name ≠ b.name) :=
    List.Pairwise.sublist (List.filter_sublist _) hsrc
  have hfind := mergeLoop_find?_self (selStates src req) dst.states hsel
  have key := mergeLoop_all_identical (fun s hs => hfind s hs)
  simp only [merge]
  rw [key]
  simp

/-- Witness for the amended C6 at a concrete input. -/
theorem merge_idempotent_witness :
    merge ⟨0, [⟨"a", 1⟩, ⟨"b", 2⟩]⟩
        (merge ⟨0, [⟨"a", 1⟩, ⟨"b", 2⟩]⟩ ⟨0, [⟨"a", 5⟩]⟩ ["a", "b"]).1 ["a", "b"]
      = ((merge ⟨0, [⟨"a", 1⟩, ⟨"b", 2⟩]⟩ ⟨0, [⟨"a", 5⟩]⟩ ["a", "b"]).1,
         (selStates ⟨0, [⟨"a", 1⟩, ⟨"b", 2⟩]⟩ ["a", "b"]).map
           (fun s => Report.identical s.name)) :=
  merge_idempotent _ _ _ (by decide)

/-- Every report line produced by the merge carries the name of some source
state. -/
theorem merge_report_names (src dst : Icon) (req : List String) :
    ∀ rep ∈ (merge src dst req).2, rep.name ∈ src.states.map (fun e => e.name) := by
  intro rep hrep
  have hrep' : rep ∈ (mergeLoop dst.states (selStates src req)).2.2
      ++ ((mergeLoop dst.states (selStates src req)).2.1).map
        (fun s => Report.added s.name) := hrep
  rcases List.mem_append.mp hrep' with h1 | h2
  · have hname := mergeLoop_report_names (selStates src req) dst.states rep h1
    obtain ⟨s, hs, hname⟩ := List.mem_map.mp hname
    exact hname ▸ List.mem_map_of_mem _ (List.mem_of_mem_filter hs)
  · obtain ⟨s, hs, rfl⟩ := List.mem_map.mp h2
    have hsel : s ∈ selStates src req := by
      rw [mergeLoop_queue (selStates src req) dst.states] at hs
      exact List.mem_of_mem_filter hs
    show s.name ∈ _
    exact List.mem_map_of_mem _ (List.mem_of_mem_filter hsel)

/-- C7: requested names matching no source state are silently ignored:
dropping every such name from the requested list changes neither the
resulting destination nor the report, and no report line (in particular no
added and no replaced line) ever carries a name absent from the source. -/
theorem merge_ignores_absent_names (src dst : Icon) (req : List String) :
    merge src dst (req.filter
        (fun n => decide (n ∈ src.states.map (fun e => e.name))))
      = merge src dst req
    ∧ ∀ n, n ∉ src.states.map (fun e => e.name) →
        Report.added n ∉ (merge src dst req).2
        ∧ Report.replaced n ∉ (merge src dst req).2 := by
  constructor
  · have hsel : selStates src (req.filter
        (fun n => decide (n ∈ src.states.map (fun e => e.name))))
        = selStates src req := by
      unfold selStates
      apply List.filter_congr
      intro s hs
      have hmem : s.name ∈ src.states.map (fun e => e.name) :=
        List.mem_map_of_mem _ hs
      cases hc : req.contains s.name with
      | true =>
        have hin : s.name ∈ req := List.elem_iff.mp hc
        exact List.elem_iff.mpr
          (List.mem_filter.mpr ⟨hin, by simpa using hmem⟩)
      | false =>
        have hnin : s.name ∉ req := by
          intro hin
          have hc2 : List.elem s.name req = false := hc
          rw [List.elem_iff.mpr hin] at hc2
          cases hc2
        have hninf : s.name ∉ req.filter
            (fun n => decide (n ∈ src.states.map (fun e => e.name))) :=
          fun hmf => hnin (List.mem_of_mem_filter hmf)
        cases hcf : List.elem s.name (req.filter
            (fun n => decide (n ∈ src.states.map (fun e => e.name)))) with
        | false => exact hcf
        | true => exact absurd (List.elem_iff.mp hcf) hninf
    unfold merge
    rw [hsel]
  · intro n hn
    exact ⟨fun hmem => hn (merge_report_names src dst req _ hmem),
           fun hmem => hn (merge_report_names src dst req _ hmem)⟩

/-- Witness for C7 at a concrete input: the unmatched name `zzz` is ignored
and never reported. -/
theorem merge_ignores_absent_names_witness :
    Report.added "zzz" ∉ (merge ⟨0, [⟨"a", 1⟩]⟩ ⟨0, []⟩ ["a", "zzz"]).2
    ∧ Report.replaced "zzz" ∉ (merge ⟨0, [⟨"a", 1⟩]⟩ ⟨0, []⟩ ["a", "zzz"]).2 :=
  (merge_ignores_absent_names ⟨0, [⟨"a", 1⟩]⟩ ⟨0, []⟩ ["a", "zzz"]).2 "zzz" (by decide)

/-! ### Claim theorems: the argument parser -/

theorem parseNaturalLoop_step_from {rest states : List String} {f t : Option String}
    {mode : ParseMode} (h : states ≠ []) :
    parseNaturalLoop ("from" :: rest) states f t mode
      = parseNaturalLoop rest states f t .From := by
  have h3 : states.isEmpty = false := by
    cases states with
    | nil => exact absurd rfl h
    | cons a l => rfl
  rw [parseNaturalLoop_cons, if_pos rfl, h3]
  rfl

theorem parseNaturalLoop_step_to {rest states : List String} {f t : Option String}
    {mode : ParseMode} (h : f.isSome = true) :
    parseNaturalLoop ("to" :: rest) states f t mode
      = parseNaturalLoop rest states f t .To := by
  rw [parseNaturalLoop_cons, if_neg (by decide), if_pos rfl, h]
  rfl

theorem parseNaturalLoop_step_from_value {rest states : List String} {t : Option String}
    {v : String} (hv : v ≠ "from" ∧ v ≠ "to") :
    parseNaturalLoop (v :: rest) states none t .From
      = parseNaturalLoop rest states (some v) t .WaitingTo := by
  rw [parseNaturalLoop_cons, if_neg hv.1, if_neg hv.2]

theorem parseNaturalLoop_step_to_value {rest states : List String} {f : Option String}
    {v : String} (hv : v ≠ "from" ∧ v ≠ "to") :
    parseNaturalLoop (v :: rest) states f none .To
      = parseNaturalLoop rest states f (some v) .Done := by
  rw [parseNaturalLoop_cons, if_neg hv.1, if_neg hv.2]

theorem parseNaturalLoop_step_done {rest states : List String} {f t : Option String}
    {v : String} (hv : v ≠ "from" ∧ v ≠ "to") :
    parseNaturalLoop (v :: rest) states f t .Done
      = Except.error .unexpectedAdditionalArgs := by
  rw [parseNaturalLoop_cons, if_neg hv.1, if_neg hv.2]

/-- C5: a well-formed natural-syntax invocation with at least one state name
and no reserved keyword used as a state name or path parses into the request
carrying the source path, the destination path and the state names in their
original left-to-right order. -/
theorem parse_natural_valid (states : List String) (F T : String)
    (h1 : states ≠ [])
    (h2 : ∀ x ∈ states, x ≠ "from" ∧ x ≠ "to")
    (hF : F ≠ "from" ∧ F ≠ "to") (hT : T ≠ "from" ∧ T ≠ "to") :
    parse_natural (states ++ ["from", F, "to", T])
      = Except.ok ⟨F, T, states⟩ := by
  unfold parse_natural
  rw [parseNaturalLoop_collect h2, List.nil_append,
    parseNaturalLoop_step_from h1, parseNaturalLoop_step_from_value hF,
    parseNaturalLoop_step_to Option.isSome_some, parseNaturalLoop_step_to_value hT]
  rfl

/-- Witness for C5 at a concrete input. -/
theorem parse_natural_valid_witness :
    parse_natural ["state1", "state2", "from", "original.dmi", "to", "target.dmi"]
      = Except.ok ⟨"original.dmi", "target.dmi", ["state1", "state2"]⟩ :=
  parse_natural_valid ["state1", "state2"] "original.dmi" "target.dmi"
    (by decide) (by decide) (by decide) (by decide)

/-- C4 counterexample: after the destination path is consumed (the `Done`
state) a further `to` token is not a fatal error: it re-enters path
collection and the following token silently overwrites the destination, so
the parse succeeds with destination `U` instead of failing. -/
theorem parse_natural_trailing_keyword_accepted :
    parse_natural ["s", "from", "F", "to", "T", "to", "U"]
      = Except.ok ⟨"F", "U", ["s"]⟩ := rfl

/-- C4 amended: parsing fails with a fatal error when `from` appears before
any state name has been collected, when `to` appears before a source path is
set, and when a further non-keyword token follows the destination path; the
keyword tokens `from` and `to` after the destination path instead re-enter
path collection. -/
theorem parse_natural_error_conditions :
    (∀ rest : List String,
      parse_natural ("from" :: rest) = Except.error .noStatesBeforeFrom)
    ∧ (∀ pre rest : List String, (∀ x ∈ pre, x ≠ "from" ∧ x ≠ "to") →
        parse_natural (pre ++ "to" :: rest)
          = Except.error .sourceNotSpecifiedBeforeTo)
    ∧ (∀ (states : List String) (F T arg : String) (rest : List String),
        states ≠ [] → (∀ x ∈ states, x ≠ "from" ∧ x ≠ "to") →
        (F ≠ "from" ∧ F ≠ "to") → (T ≠ "from" ∧ T ≠ "to") →
        (arg ≠ "from" ∧ arg ≠ "to") →
        parse_natural (states ++ "from" :: F :: "to" :: T :: arg :: rest)
          = Except.error .unexpectedAdditionalArgs) := by
  refine ⟨fun rest => rfl, ?_, ?_⟩
  · intro pre rest hpre
    unfold parse_natural
    rw [parseNaturalLoop_collect hpre]
    rfl
  · intro states F T arg rest h1 h2 hF hT harg
    unfold parse_natural
    rw [parseNaturalLoop_collect h2, List.nil_append,
      parseNaturalLoop_step_from h1, parseNaturalLoop_step_from_value hF,
      parseNaturalLoop_step_to Option.isSome_some, parseNaturalLoop_step_to_value hT,
      parseNaturalLoop_step_done harg]

/-- Witness for the amended C4 at concrete inputs, one per error condition. -/
theorem parse_natural_error_conditions_witness :
    parse_natural ["from", "original.dmi", "to", "target.dmi"]
      = Except.error .noStatesBeforeFrom
    ∧ parse_natural ["state1", "to", "target.dmi"]
      = Except.error .sourceNotSpecifiedBeforeTo
    ∧ parse_natural ["state1", "from", "original.dmi", "to", "target.dmi", "extra"]
      = Except.error .unexpectedAdditionalArgs :=
  ⟨parse_natural_error_conditions.1 ["original.dmi", "to", "target.dmi"],
   parse_natural_error_conditions.2.1 ["state1"] ["target.dmi"] (by decide),
   parse_natural_error_conditions.2.2 ["state1"] "original.dmi" "target.dmi"
     "extra" [] (by decide) (by decide) (by decide) (by decide) (by decide)⟩

/-- C10: the destination path can only be set after the source path, so the
`Missing source file` arm of the final check is unreachable: no input ever
produces that error. -/
theorem missing_source_error_unreachable :
    ∀ args : List String, isMissingSource (parse_natural args) = false := by
  intro args
  unfold parse_natural
  cases h : parseNaturalLoop args [] none none .States with
  | error e =>
    rcases parseNaturalLoop_error_set h with rfl | rfl | rfl | rfl <;> rfl
  | ok v =>
    obtain ⟨states', f', t'⟩ := v
    have hinv := parseNaturalLoop_source_before_dest
      (by intro hsome; cases hsome)
      (by rintro (hm | hm | hm) <;> cases hm) h
    cases f' with
    | some fv => cases t' <;> rfl
    | none =>
      cases t' with
      | none => rfl
      | some tv => exact absurd (hinv rfl) Bool.false_ne_true

/-- C8: the flag-syntax state value is split on commas, each piece trimmed
and empty pieces discarded (so consecutive commas vanish while duplicates
and order survive), and the lists from successive `--state` occurrences are
concatenated in occurrence order. -/
theorem parse_state_arg_splitting :
    parse_state_arg "state1,,state2" = ["state1", "state2"]
    ∧ parse_state_arg " a ,a" = ["a", "a"]
    ∧ (∀ v : String, flagIconStates [v] = parse_state_arg v)
    ∧ (∀ occ1 occ2 : List String,
        flagIconStates (occ1 ++ occ2) = flagIconStates occ1 ++ flagIconStates occ2) := by
  refine ⟨rfl, rfl, fun v => ?_, fun occ1 occ2 => ?_⟩
  · simp [flagIconStates]
  · simp [flagIconStates]

/-! ### Claim theorems: the atomic commit and the error contexts -/

/-- C2 counterexample: the publish step is a plain `std::fs::copy`, which
truncates the destination before streaming the new bytes, so a mid-copy
failure is surfaced as an error yet leaves the destination holding a
truncated prefix of the new contents instead of its pre-run contents: here
the pre-run contents were three bytes and after the failed commit a single
byte of the new encoding remains. -/
theorem save_dmi_partial_copy_corrupts_destination :
    (save_dmi (fun _ => some [9, 9]) true true (CopyOutcome.failedAfter 1) ⟨0, []⟩
        "dest.dmi" "tmp.dmi" ⟨[("dest.dmi", [1, 2, 3])]⟩).2
      = Except.error SaveError.copyFailed
    ∧ (save_dmi (fun _ => some [9, 9]) true true (CopyOutcome.failedAfter 1) ⟨0, []⟩
        "dest.dmi" "tmp.dmi" ⟨[("dest.dmi", [1, 2, 3])]⟩).1.read "dest.dmi"
      = some [9]
    ∧ (FS.mk [("dest.dmi", [1, 2, 3])]).read "dest.dmi" = some [1, 2, 3] :=
  ⟨rfl, rfl, rfl⟩

/-- C2 amended: every failure of the commit is surfaced to the caller with
no retry, and whenever the failure happens before the destination is opened
for the publish copy (temp-file creation, serialization, finishing the
buffered write, or a copy failure prior to opening the destination), the
destination file is left byte-identical to its pre-run contents; only a
mid-copy failure can leave it altered. -/
theorem save_dmi_precopy_error_leaves_destination (encode : Icon → Option (List Nat))
    (tempOk finishOk : Bool) (copyOut : CopyOutcome) (dmi : Icon)
    (path tempPath : String) (fs : FS) (e : SaveError)
    (hne : tempPath ≠ path)
    (herr : (save_dmi encode tempOk finishOk copyOut dmi path tempPath fs).2
      = Except.error e)
    (hpre : e ≠ SaveError.copyFailed ∨ copyOut = CopyOutcome.failedBeforeOpen) :
    (save_dmi encode tempOk finishOk copyOut dmi path tempPath fs).1.read path
      = fs.read path := by
  cases tempOk with
  | false => rfl
  | true =>
    unfold save_dmi at herr ⊢
    cases henc : encode dmi with
    | none =>
      show ((fs.write tempPath []).remove tempPath).read path = fs.read path
      rw [FS.read_remove_ne hne, FS.read_write_ne hne]
    | some bytes =>
      cases finishOk with
      | false =>
        show ((fs.write tempPath []).remove tempPath).read path = fs.read path
        rw [FS.read_remove_ne hne, FS.read_write_ne hne]
      | true =>
        cases copyOut with
        | ok =>
          rw [henc] at herr
          exact Except.noConfusion (herr : Except.ok () = Except.error e)
        | failedBeforeOpen =>
          show (((fs.write tempPath []).write tempPath bytes).remove
              tempPath).read path = fs.read path
          rw [FS.read_remove_ne hne, FS.read_write_ne hne, FS.read_write_ne hne]
        | failedAfter written =>
          rw [henc] at herr
          have he : e = SaveError.copyFailed := by
            have h2 : (Except.error SaveError.copyFailed : Except SaveError Unit)
                = Except.error e := herr
            cases h2
            rfl
          rcases hpre with hpre | hpre
          · exact absurd he hpre
          · exact CopyOutcome.noConfusion hpre

/-- Witness for the amended C2 at a concrete input: a serialization failure
leaves the destination file's one-entry contents untouched. -/
theorem save_dmi_precopy_error_leaves_destination_witness :
    (save_dmi (fun _ => none) true true CopyOutcome.ok ⟨0, []⟩ "dest.dmi" "tmp.dmi"
        ⟨[("dest.dmi", [1, 2, 3])]⟩).1.read "dest.dmi"
      = (FS.mk [("dest.dmi", [1, 2, 3])]).read "dest.dmi" :=
  save_dmi_precopy_error_leaves_destination (fun _ => none) true true
    CopyOutcome.ok ⟨0, []⟩ "dest.dmi" "tmp.dmi" ⟨[("dest.dmi", [1, 2, 3])]⟩
    SaveError.serializeFailed (by decide) rfl (Or.inl (by decide))

/-- C9: the error context used when reading the destination file fails names
the input path instead of the destination path actually involved: with input
`a.dmi` and destination `b.dmi` the message interpolates `a.dmi`, not the
path `b.dmi` the failing read was operating on. -/
theorem output_load_context_names_wrong_path :
    outputLoadContext "a.dmi" "b.dmi" = "failed to read output file a.dmi"
    ∧ (outputLoadContext "a.dmi" "b.dmi"
        == "failed to read output file b.dmi") = false :=
  ⟨rfl, by decide⟩

end DmiCopy
